import Mathlib

/-!
Verification of the `pull` CLI (Phillip-England/pull, `main.go`).

The embedding models Go strings as `List Char` (one entry per byte /
character; all behaviour the claims touch is ASCII), Go's `error` results
as `Except Str`, and the external collaborators (clipboard service, HTTP
transport, ignore-pattern matcher, filesystem) as explicit inputs:
a clipboard read is an `Option Str` (`none` = read error), an HTTP
response is a `status`/`body` record, the ignore matcher is a boolean
predicate on paths, and a directory tree is an inductive `FSTree`.
`bufio.Scanner` with the default `ScanLines` split is modelled exactly,
including its 64 KiB maximum token size: a line of
`bufio.MaxScanTokenSize` (65536) bytes or more makes `Scan` fail with
`ErrTooLong`, and since neither filtering loop checks `scanner.Err()`,
that line and all content after it are silently dropped.
-/

namespace Pull

/-- Go strings, as sequences of characters/bytes. -/
abbrev Str := List Char

/-- Shorthand for embedding a literal. -/
def lit (s : String) : Str := s.toList

/-- `unicode.IsSpace`: the Latin-1 fast path (`\t`-`\r`, space, NEL,
NBSP) plus the remaining runes of Unicode's White_Space property
(OGHAM SPACE MARK, the U+2000 block, LINE/PARAGRAPH SEPARATOR, NARROW
NBSP, MEDIUM MATHEMATICAL SPACE, IDEOGRAPHIC SPACE). -/
def isSpaceChar (c : Char) : Bool :=
  c = ' ' || c = '\t' || c = '\n' || c.val = 11 || c.val = 12 || c = '\r' ||
    c.val = 0x85 || c.val = 0xA0 || c.val = 0x1680 ||
    (0x2000 ≤ c.val && c.val ≤ 0x200A) || c.val = 0x2028 || c.val = 0x2029 ||
    c.val = 0x202F || c.val = 0x205F || c.val = 0x3000

/-- `strings.TrimSpace`. -/
def trimSpace (s : Str) : Str :=
  ((s.dropWhile isSpaceChar).reverse.dropWhile isSpaceChar).reverse

/-- Split a character list at every occurrence of `sep`; the separators are
consumed and the (possibly empty) segments between them are returned, so the
result is always non-empty. -/
def splitOnChar (sep : Char) : Str → List Str
  | [] => [[]]
  | c :: rest =>
    if c = sep then [] :: splitOnChar sep rest
    else
      match splitOnChar sep rest with
      | [] => [[c]]
      | seg :: segs => (c :: seg) :: segs

/-- `bufio.dropCR`: remove one trailing carriage return, if present. -/
def dropCR (l : Str) : Str :=
  if l.getLast? = some '\r' then l.dropLast else l

/-- `bufio.MaxScanTokenSize`: the default maximum token size of a
`bufio.Scanner` whose buffer is never enlarged with `.Buffer()`. -/
def maxScanTokenSize : Nat := 65536

/-- The token stream `scanner.Scan()`/`scanner.Text()` yields over the
newline-separated segments: a segment of `maxScanTokenSize` bytes or more
cannot be buffered, so `Scan` fails with `ErrTooLong` there — no further
token is produced (the filtering loops never check `scanner.Err()`, so the
stop is silent); a shorter non-final segment is a token with one trailing
carriage return removed; the final segment (no newline behind it) is such
a token unless it is empty (`ScanLines` at EOF with no data). -/
def scanTokens : List Str → List Str
  | [] => []
  | [last] =>
    if maxScanTokenSize ≤ last.length then []
    else if last = [] then [] else [dropCR last]
  | seg :: rest =>
    if maxScanTokenSize ≤ seg.length then []
    else dropCR seg :: scanTokens rest

/-- The line sequence produced by `bufio.Scanner` with the default
`bufio.ScanLines` split function over the whole content. -/
def scanLines (s : Str) : List Str := scanTokens (splitOnChar '\n' s)

/-- The retention test of the filtering loop in `processFile` and
`fetchFileRaw`: keep a line unless its `strings.TrimSpace` image is empty
or starts with `//` or `#`. -/
def keepLine (line : Str) : Bool :=
  let trimmed := trimSpace line
  !(trimmed.isEmpty || (lit "//").isPrefixOf trimmed || (lit "#").isPrefixOf trimmed)

/-- The emission loop body shared by `processFile` and `fetchFileRaw`:
write each kept line followed by a single newline. -/
def emitLines : List Str → Str
  | [] => []
  | l :: ls => if keepLine l then l ++ '\n' :: emitLines ls else emitLines ls

/-- Join a list of lines, terminating each with a newline. -/
def joinNL (ls : List Str) : Str :=
  ls.foldr (fun l acc => l ++ '\n' :: acc) []

/-- The Line Filter as it appears in `processFile` (`main.go:311-323`):
scanner over the content, per-line retention test, emit kept lines. -/
def processFileLines (content : Str) : Str :=
  emitLines (scanLines content)

/-- The Line Filter as it appears in `fetchFileRaw` (`main.go:717-729`),
applied to the fetched remote file bytes; the loop is character-for-character
the one in `processFile`. -/
def fetchFileRawLines (content : Str) : Str :=
  emitLines (scanLines content)

/-- `maxFetchBytes = 5 << 20` (`main.go:23`). -/
def maxFetchBytes : Nat := 5 * 2 ^ 20

/-- `readUpTo` (`main.go:273-283`): read through a `LimitedReader` capped at
`max + 1` bytes — so at most `max + 1` bytes of the stream `r` are taken —
then fail if more than `max` bytes arrived.  I/O errors of the reader do not
arise in the pure model. -/
def readUpTo (r : Str) (max : Nat) : Except Str Str :=
  let b := r.take (max + 1)
  if max < b.length then Except.error (lit "response too large (exceeds maxFetchBytes)")
  else Except.ok b

/-- The builder seed of `buildWithClipboardModes` (`sb` after the
`appendMode` block, `main.go:208-216`): the prior clipboard content plus a
newline separator when it is non-empty without one; empty when the read
failed or append mode is off. -/
def seedOf (appendMode : Bool) (readApp : Option Str) : Str :=
  if appendMode then
    match readApp with
    | some current =>
      current ++ (if current ≠ [] ∧ current.getLast? ≠ some '\n' then ['\n'] else [])
    | none => []
  else []

/-- `previousContent` of `buildWithClipboardModes` (`main.go:218-224`):
the second clipboard read, held aside; empty when the read failed or
prepend mode is off. -/
def prevOf (prependMode : Bool) (readPre : Option Str) : Str :=
  if prependMode then
    match readPre with
    | some c => c
    | none => []
  else []

/-- `buildWithClipboardModes` (`main.go:205-239`).  The two clipboard reads
are passed in as `readApp`/`readPre` (`none` models a read error); the
content-producing callback is passed as its outcome `produce` — every
callback in `main` only appends to the builder, and on failure the builder
is discarded, so the callback is faithfully represented by the text it
appends on success. -/
def buildWithClipboardModes (appendMode prependMode : Bool)
    (readApp readPre : Option Str) (produce : Except Str Str) : Except Str Str :=
  let sb := seedOf appendMode readApp
  let previousContent := prevOf prependMode readPre
  match produce with
  | Except.error e => Except.error e
  | Except.ok newContent =>
    let final := sb ++ newContent
    let final :=
      if prependMode ∧ previousContent ≠ [] then
        (if final ≠ [] ∧ final.getLast? ≠ some '\n' then final ++ ['\n'] else final)
          ++ previousContent
      else final
    Except.ok final

/-- The clipboard-affecting tail of `main` (`main.go:193-201`): on a merge
error the process exits without touching the clipboard; on success the merge
result is written.  Returns the final clipboard content and whether a write
happened. -/
def mainCollect (appendMode prependMode : Bool) (readApp readPre : Option Str)
    (produce : Except Str Str) (clip0 : Str) : Str × Bool :=
  match buildWithClipboardModes appendMode prependMode readApp readPre produce with
  | Except.error _ => (clip0, false)
  | Except.ok final => (final, true)

/-- An HTTP response, as far as the core consumes one. -/
structure HTTPResponse where
  status : Nat
  body : Str
deriving Repr

/-- `normalizeURL` (`main.go:285-294`). -/
def normalizeURL (s : Str) : Str :=
  let s := trimSpace s
  if s = [] then s
  else if (lit "http://").isPrefixOf s || (lit "https://").isPrefixOf s then s
  else lit "https://" ++ s

/-- `fetchIntoBuilder` (`main.go:241-271`), from the response on: non-2xx
status is an error; the body is read through `readUpTo maxFetchBytes`; the
emitted segment is the `href:` header, the raw body, and a newline when the
body is non-empty and does not end in one.  The segment appended to the
builder is returned. -/
def fetchIntoBuilder (u : Str) (resp : HTTPResponse) : Except Str Str :=
  if resp.status < 200 ∨ 299 < resp.status then
    Except.error (lit "href: bad status for " ++ u)
  else
    match readUpTo resp.body maxFetchBytes with
    | Except.error e => Except.error (lit "href: reading body failed: " ++ e)
    | Except.ok body =>
      Except.ok (lit "href: " ++ u ++ '\n' ::
        (body ++ (if body ≠ [] ∧ body.getLast? ≠ some '\n' then ['\n'] else [])))

/-- The response handling of `walkContents` (`main.go:600-618`): the listing
body — error bodies included — is read through `readUpTo maxFetchBytes`
BEFORE the status code is examined, then a non-2xx status is fatal.
The JSON dispatch on the returned body is downstream of this step. -/
def ghListingBody (resp : HTTPResponse) : Except Str Str :=
  match readUpTo resp.body maxFetchBytes with
  | Except.error e => Except.error (lit "github: response too large: " ++ e)
  | Except.ok body =>
    if resp.status < 200 ∨ 299 < resp.status then
      Except.error (lit "github: bad status")
    else Except.ok body

/-!  GitHub spec parsing (`main.go:443-524`).  The scheme/host splitting is
done by the standard library's `url.Parse`; the repository's own logic
consumes the URL's path component, which is what is modelled here. -/

/-- The parsed remote specification (struct `gitHubSpec`, `main.go:420-427`;
the `Label` field only feeds the `github:` banner and is omitted). -/
structure GitHubSpec where
  owner : Str
  repo : Str
  ref : Str
  path : Str
deriving Repr, DecidableEq

/-- `strings.TrimPrefix(s, "/")`. -/
def trimPreSlash (s : Str) : Str :=
  match s with
  | c :: t => if c = '/' then t else c :: t
  | [] => []

/-- `strings.TrimSuffix(s, "/")`. -/
def trimSufSlash (s : Str) : Str :=
  if s.getLast? = some '/' then s.dropLast else s

/-- `splitPathKeepOrder` (`main.go:508-524`): trim whitespace and one
leading/trailing slash, return nothing for the empty path, else split on
`/` and drop empty segments. -/
def splitPathKeepOrder (p : Str) : List Str :=
  let p := trimSpace p
  let p := trimPreSlash p
  let p := trimSufSlash p
  if p = [] then []
  else (splitOnChar '/' p).filter (fun l => !l.isEmpty)

/-- `strings.Join(parts, "/")`. -/
def joinSegs : List Str → Str
  | [] => []
  | [l] => l
  | l :: ls => l ++ '/' :: joinSegs ls

/-- `strings.Index(s, "@")`: index of the first `@`, if any. -/
def idxOfAt : Str → Option Nat
  | [] => none
  | c :: t => if c = '@' then some 0 else (idxOfAt t).map (· + 1)

/-- The marker-based parse of the segments after owner/repo
(`main.go:477-485`): with at least two further segments, a `tree`/`blob`
first marks the next as ref and the remainder as sub-path; otherwise all
remaining segments are sub-path with no explicit ref. -/
def refAndPath : List Str → Str × Str
  | m :: r :: more =>
    if m = lit "tree" ∨ m = lit "blob" then (r, joinSegs more)
    else ([], joinSegs (m :: r :: more))
  | rest => ([], joinSegs rest)

/-- The `owner/repo@ref` shorthand (`main.go:490-493`), applied after the
marker parse: a first `@` inside the repo segment splits it into repo name
and (overriding) ref. -/
def repoAndRef (repo0 ref0 : Str) : Str × Str :=
  match idxOfAt repo0 with
  | some i => (repo0.take i, repo0.drop (i + 1))
  | none => (repo0, ref0)

/-- `parseGitHubSpec` (`main.go:443-506`) on the split segments: fewer than
two segments is an error; else owner, repo (after the `@` split), the ref
from marker or `@`, and the sub-path with its leading slash trimmed. -/
def parseSegs : List Str → Except Str GitHubSpec
  | owner :: repo0 :: rest =>
    Except.ok
      { owner := owner,
        repo := (repoAndRef repo0 (refAndPath rest).1).1,
        ref := (repoAndRef repo0 (refAndPath rest).1).2,
        path := trimPreSlash (refAndPath rest).2 }
  | _ => Except.error (lit "github: expected github.com/<owner>/<repo>")

/-- `parseGitHubSpec` (`main.go:443-506`) from the URL path component after
the host (scheme/host splitting is the standard library's `url.Parse`). -/
def parseGitHubSpecPath (p : Str) : Except Str GitHubSpec :=
  parseSegs (splitPathKeepOrder p)

/-!  Local tree walk (`main.go:154-191`).  `filepath.WalkDir` visits the
root and every entry below it in order; the callback prunes ignored
directories via `filepath.SkipDir`, skips ignored files, and runs
`processFile` on every other file.  The filesystem is an explicit tree,
the ignore decision (`isIgnored` wrapping the out-of-scope gitignore
matcher) an explicit predicate on the accumulated path segments, and
absolute-path resolution is the joined segment path. -/

/-- A filesystem subtree: named files with contents, named directories. -/
inductive FSTree where
  | file (name : Str) (content : Str) : FSTree
  | dir (name : Str) (children : List FSTree) : FSTree
deriving Repr

/-- `processFile` (`main.go:296-324`) for a readable file: the `file:`
header with the resolved path, then the Line Filter of the contents. -/
def fileSegment (p : Str) (content : Str) : Str :=
  lit "file: " ++ p ++ '\n' :: processFileLines content

mutual
/-- The `WalkDir` callback of `main` over a subtree rooted at `t`, with the
path of `t`'s parent accumulated in `path`. -/
def walkTree (includeIgnored : Bool) (ign : List Str → Bool)
    (path : List Str) : FSTree → Str
  | FSTree.file name content =>
    let p := path ++ [name]
    if !includeIgnored && ign p then [] else fileSegment (joinSegs p) content
  | FSTree.dir name children =>
    let p := path ++ [name]
    if !includeIgnored && ign p then []
    else walkForest includeIgnored ign p children

/-- The walk over a directory's children, in order. -/
def walkForest (includeIgnored : Bool) (ign : List Str → Bool)
    (path : List Str) : List FSTree → Str
  | [] => []
  | t :: ts =>
    walkTree includeIgnored ign path t ++ walkForest includeIgnored ign path ts
end

/-!  Spec-side formulations used to state the claims. -/

/-- The seed the claim describes for append mode: the prior clipboard
content when the read succeeded, followed by a newline separator exactly
when that content is non-empty and does not already end in one. -/
def appendSeedSpec (appendMode : Bool) (readApp : Option Str) : Str :=
  match appendMode, readApp with
  | true, some prior =>
    prior ++ (if prior ≠ [] ∧ prior.getLast? ≠ some '\n' then ['\n'] else [])
  | _, _ => []

/-- The tail the claim describes for prepend mode: the prior clipboard
content when the (second) read succeeded non-empty, preceded by a newline
separator exactly when the NEW content is non-empty and does not end in
one. -/
def prependTailSpec (prependMode : Bool) (readPre : Option Str) (newContent : Str) : Str :=
  match prependMode, readPre with
  | true, some prior =>
    if prior ≠ [] then
      (if newContent ≠ [] ∧ newContent.getLast? ≠ some '\n' then ['\n'] else []) ++ prior
    else []
  | _, _ => []

theorem getLast?_append_right {l₁ l₂ : Str} (h : l₂ ≠ []) :
    (l₁ ++ l₂).getLast? = l₂.getLast? :=
  List.getLast?_append_of_ne_nil l₁ h

/-- The builder seed is empty or ends in a newline. -/
theorem seedOf_nl (appendMode : Bool) (readApp : Option Str) :
    seedOf appendMode readApp = [] ∨
      (seedOf appendMode readApp).getLast? = some '\n' := by
  cases appendMode with
  | false => exact Or.inl rfl
  | true =>
    cases readApp with
    | none => exact Or.inl rfl
    | some current =>
      by_cases hc : current ≠ [] ∧ current.getLast? ≠ some '\n'
      · right
        show (current ++ (if current ≠ [] ∧ current.getLast? ≠ some '\n'
            then ['\n'] else [])).getLast? = some '\n'
        rw [if_pos hc, getLast?_append_right (by simp)]
        rfl
      · have h2 : seedOf true (some current) = current := by
          show current ++ (if current ≠ [] ∧ current.getLast? ≠ some '\n'
            then ['\n'] else []) = current
          rw [if_neg hc]
          simp
        rw [h2]
        push_neg at hc
        by_cases hcur : current = []
        · exact Or.inl hcur
        · exact Or.inr (hc hcur)

/-- The append seed the code builds is empty or ends in a newline, so the
prepend separator test on `seed ++ new` agrees with the claim's test on
`new` alone. -/
theorem sep_test_shift (sb newContent : Str)
    (h : sb = [] ∨ sb.getLast? = some '\n') :
    ((sb ++ newContent ≠ [] ∧ (sb ++ newContent).getLast? ≠ some '\n')
      ↔ (newContent ≠ [] ∧ newContent.getLast? ≠ some '\n')) := by
  by_cases hn : newContent = []
  · subst hn
    simp only [List.append_nil]
    constructor
    · rintro ⟨hne, hlast⟩
      rcases h with h | h
      · exact absurd h hne
      · exact absurd h hlast
    · rintro ⟨hne, _⟩
      exact absurd rfl hne
  · rw [getLast?_append_right hn]
    constructor
    · rintro ⟨_, hlast⟩
      exact ⟨hn, hlast⟩
    · rintro ⟨_, hlast⟩
      exact ⟨List.append_ne_nil_of_right_ne_nil _ hn, hlast⟩

/-- The final-content assembly of the merge, with the seed abstracted. -/
theorem build_core (sb prior : Str) (prependMode : Bool) (newContent : Str)
    (h : sb = [] ∨ sb.getLast? = some '\n') :
    (if prependMode ∧ prior ≠ [] then
       (if sb ++ newContent ≠ [] ∧ (sb ++ newContent).getLast? ≠ some '\n'
        then (sb ++ newContent) ++ ['\n'] else sb ++ newContent) ++ prior
     else sb ++ newContent)
    = sb ++ newContent
        ++ (if prependMode ∧ prior ≠ [] then
              (if newContent ≠ [] ∧ newContent.getLast? ≠ some '\n'
               then ['\n'] else []) ++ prior
            else []) := by
  by_cases hc : prependMode ∧ prior ≠ []
  · rw [if_pos hc, if_pos hc]
    have hiff := sep_test_shift sb newContent h
    by_cases hs : newContent ≠ [] ∧ newContent.getLast? ≠ some '\n'
    · rw [if_pos (hiff.mpr hs), if_pos hs]
      simp
    · rw [if_neg (fun hh => hs (hiff.mp hh)), if_neg hs]
      simp
  · rw [if_neg hc, if_neg hc]
    simp

theorem appendSeedSpec_eq (appendMode : Bool) (readApp : Option Str) :
    appendSeedSpec appendMode readApp = seedOf appendMode readApp := by
  cases appendMode <;> cases readApp <;> rfl

theorem prependTailSpec_eq (prependMode : Bool) (readPre : Option Str)
    (newContent : Str) :
    prependTailSpec prependMode readPre newContent
      = (if prependMode ∧ prevOf prependMode readPre ≠ [] then
           (if newContent ≠ [] ∧ newContent.getLast? ≠ some '\n'
            then ['\n'] else []) ++ prevOf prependMode readPre
         else []) := by
  cases prependMode <;> cases readPre <;> simp [prependTailSpec, prevOf]

/-- Decomposition of the merge on a successful callback (shared helper). -/
theorem build_ok_eq (appendMode prependMode : Bool)
    (readApp readPre : Option Str) (newContent : Str) :
    buildWithClipboardModes appendMode prependMode readApp readPre
        (Except.ok newContent)
      = Except.ok (appendSeedSpec appendMode readApp ++ newContent
          ++ prependTailSpec prependMode readPre newContent) := by
  show Except.ok
      (if prependMode ∧ prevOf prependMode readPre ≠ [] then
        (if seedOf appendMode readApp ++ newContent ≠ []
            ∧ (seedOf appendMode readApp ++ newContent).getLast? ≠ some '\n'
         then (seedOf appendMode readApp ++ newContent) ++ ['\n']
         else seedOf appendMode readApp ++ newContent)
          ++ prevOf prependMode readPre
      else seedOf appendMode readApp ++ newContent) = _
  rw [appendSeedSpec_eq, prependTailSpec_eq,
    build_core _ _ _ _ (seedOf_nl appendMode readApp)]

/-- C1: with a successful content-producing callback, the merge result is
exactly the append seed (prior content plus separator, when the first read
succeeded non-empty), then the newly produced content, then the prepend
tail (separator — inserted exactly when the new content is non-empty and
does not end in a newline — plus prior content, when the second read
succeeded non-empty).  New and old content are never interleaved, also when
both modes are set. -/
theorem merge_decomposition (appendMode prependMode : Bool)
    (readApp readPre : Option Str) (newContent : Str) :
    buildWithClipboardModes appendMode prependMode readApp readPre
        (Except.ok newContent)
      = Except.ok (appendSeedSpec appendMode readApp ++ newContent
          ++ prependTailSpec prependMode readPre newContent) :=
  build_ok_eq appendMode prependMode readApp readPre newContent

/-- C2: a failing content-producing callback aborts the merge with that
very error, the clipboard is left untouched (no partial write), and a
prior-clipboard read failure during append/prepend seeding is swallowed:
with both reads failing the merge still succeeds and yields exactly the new
content. -/
theorem merge_error_propagation (appendMode prependMode : Bool)
    (readApp readPre : Option Str) (e : Str) (clip0 : Str) :
    buildWithClipboardModes appendMode prependMode readApp readPre
        (Except.error e) = Except.error e
    ∧ mainCollect appendMode prependMode readApp readPre (Except.error e) clip0
        = (clip0, false)
    ∧ ∀ newContent : Str,
        buildWithClipboardModes appendMode prependMode none none
          (Except.ok newContent) = Except.ok newContent := by
  refine ⟨rfl, ?_, ?_⟩
  · unfold mainCollect
    rfl
  · intro newContent
    have h := build_ok_eq appendMode prependMode none none newContent
    rw [h]
    unfold appendSeedSpec prependTailSpec
    cases appendMode <;> cases prependMode <;> simp

/-- Within the ceiling nothing is cut: `readUpTo` returns the stream whole. -/
theorem readUpTo_full (r : Str) (max : Nat) (h : r.length ≤ max) :
    readUpTo r max = Except.ok r := by
  unfold readUpTo
  rw [List.take_of_length_le (Nat.le_trans h (Nat.le_succ max))]
  rw [if_neg (by omega)]

/-- C5: a body of exactly the 5 MiB ceiling is returned in full; one byte
over fails with the "too large" error; and whenever `readUpTo` succeeds it
returns the body unaltered — content is never silently truncated to the
ceiling. -/
theorem readUpTo_boundary (body : Str) :
    (body.length = maxFetchBytes →
      readUpTo body maxFetchBytes = Except.ok body)
    ∧ (body.length = maxFetchBytes + 1 →
      readUpTo body maxFetchBytes
        = Except.error (lit "response too large (exceeds maxFetchBytes)"))
    ∧ (∀ r, readUpTo body maxFetchBytes = Except.ok r → r = body) := by
  refine ⟨fun h => readUpTo_full body maxFetchBytes (Nat.le_of_eq h), ?_, ?_⟩
  · intro h
    unfold readUpTo
    rw [if_pos]
    rw [List.length_take, h]
    omega
  · intro r hr
    unfold readUpTo at hr
    by_cases hlen : body.length ≤ maxFetchBytes
    · rw [List.take_of_length_le (Nat.le_trans hlen (Nat.le_succ _))] at hr
      rw [if_neg (by omega)] at hr
      exact (Except.ok.injEq .. ▸ congrArg id hr).symm ▸ (Except.ok.inj hr).symm
    · exfalso
      rw [if_pos] at hr
      · exact Except.noConfusion hr
      · rw [List.length_take]
        omega

/-- Closed instance for `readUpTo_boundary`: a body of exactly
`maxFetchBytes` bytes is accepted whole. -/
theorem readUpTo_boundary_witness :
    (List.replicate maxFetchBytes 'a').length = maxFetchBytes
    ∧ readUpTo (List.replicate maxFetchBytes 'a') maxFetchBytes
        = Except.ok (List.replicate maxFetchBytes 'a') :=
  ⟨by simp, (readUpTo_boundary (List.replicate maxFetchBytes 'a')).1 (by simp)⟩

/-- C8: a successful URL fetch (2xx, body within the ceiling) emits exactly
the `href: <normalized-url>` header line, then the raw body verbatim (no
Line Filter), then a newline exactly when the body is non-empty and does
not already end in one. -/
theorem fetch_success_segment (raw : Str) (resp : HTTPResponse)
    (h200 : 200 ≤ resp.status) (h299 : resp.status ≤ 299)
    (hlen : resp.body.length ≤ maxFetchBytes) :
    fetchIntoBuilder (normalizeURL raw) resp
      = Except.ok (lit "href: " ++ normalizeURL raw ++ '\n' ::
          (resp.body ++
            (if resp.body ≠ [] ∧ resp.body.getLast? ≠ some '\n'
             then ['\n'] else []))) := by
  unfold fetchIntoBuilder
  rw [if_neg (by omega), readUpTo_full resp.body maxFetchBytes hlen]

/-- Closed instance for `fetch_success_segment`: a 200 response with body
`"hi"` yields the header plus the body plus a final newline. -/
theorem fetch_success_segment_witness :
    (200 ≤ (HTTPResponse.mk 200 (lit "hi")).status
      ∧ (HTTPResponse.mk 200 (lit "hi")).status ≤ 299
      ∧ (HTTPResponse.mk 200 (lit "hi")).body.length ≤ maxFetchBytes)
    ∧ fetchIntoBuilder (normalizeURL (lit "example.com"))
        (HTTPResponse.mk 200 (lit "hi"))
      = Except.ok (lit "href: " ++ normalizeURL (lit "example.com") ++ '\n' ::
          ((lit "hi") ++
            (if lit "hi" ≠ [] ∧ (lit "hi").getLast? ≠ some '\n'
             then ['\n'] else []))) :=
  ⟨⟨by decide, by decide, by decide⟩,
    fetch_success_segment (lit "example.com") (HTTPResponse.mk 200 (lit "hi"))
      (by decide) (by decide) (by decide)⟩

/-- C10: a directory-listing response whose body exceeds the 5 MiB ceiling
is a fatal "too large" error for the operand, whatever the status code —
the bound is applied to the listing body (error bodies included) before the
status is even examined, through the same `readUpTo`/`maxFetchBytes` pair
used for file fetches. -/
theorem listing_too_large (resp : HTTPResponse)
    (h : maxFetchBytes < resp.body.length) :
    ghListingBody resp
      = Except.error (lit "github: response too large: "
          ++ lit "response too large (exceeds maxFetchBytes)") := by
  unfold ghListingBody readUpTo
  rw [if_pos]
  rw [List.length_take]
  omega

/-- Closed instance for `listing_too_large`: a 404 listing response one byte
over the ceiling fails as "too large". -/
theorem listing_too_large_witness :
    maxFetchBytes
        < (HTTPResponse.mk 404 (List.replicate (maxFetchBytes + 1) 'x')).body.length
    ∧ ghListingBody (HTTPResponse.mk 404 (List.replicate (maxFetchBytes + 1) 'x'))
        = Except.error (lit "github: response too large: "
            ++ lit "response too large (exceeds maxFetchBytes)") :=
  ⟨by simp, listing_too_large
    (HTTPResponse.mk 404 (List.replicate (maxFetchBytes + 1) 'x')) (by simp)⟩

/-!  Structure of `splitOnChar` and the scanner tokenization. -/

theorem splitOnChar_cons (sep c : Char) (rest : Str) :
    splitOnChar sep (c :: rest)
      = if c = sep then [] :: splitOnChar sep rest
        else match splitOnChar sep rest with
          | [] => [[c]]
          | seg :: segs => (c :: seg) :: segs := rfl

theorem splitOnChar_ne_nil (sep : Char) (s : Str) : splitOnChar sep s ≠ [] := by
  induction s with
  | nil => simp [splitOnChar]
  | cons c rest ih =>
    unfold splitOnChar
    by_cases hc : c = sep
    · simp [hc]
    · rw [if_neg hc]
      cases hsp : splitOnChar sep rest with
      | nil => simp
      | cons seg segs => simp

theorem sep_not_mem_splitOnChar (sep : Char) (s : Str) :
    ∀ l ∈ splitOnChar sep s, sep ∉ l := by
  induction s with
  | nil =>
    intro l hl
    simp [splitOnChar] at hl
    simp [hl]
  | cons c rest ih =>
    intro l hl
    unfold splitOnChar at hl
    by_cases hc : c = sep
    · rw [if_pos hc] at hl
      rcases List.mem_cons.mp hl with h | h
      · simp [h]
      · exact ih l h
    · rw [if_neg hc] at hl
      cases hsp : splitOnChar sep rest with
      | nil => exact absurd hsp (splitOnChar_ne_nil sep rest)
      | cons seg segs =>
        rw [hsp] at hl
        rcases List.mem_cons.mp hl with h | h
        · subst h
          intro hmem
          rcases List.mem_cons.mp hmem with h1 | h1
          · exact hc h1.symm
          · exact ih seg (by rw [hsp]; exact List.mem_cons_self seg segs) h1
        · exact ih l (by rw [hsp]; exact List.mem_cons_of_mem seg h)

theorem splitOnChar_head_pre (sep : Char) (s : Str) :
    ∃ seg segs, splitOnChar sep s = seg :: segs ∧ seg <+: s := by
  induction s with
  | nil => exact ⟨[], [], rfl, List.nil_prefix⟩
  | cons c rest ih =>
    by_cases hc : c = sep
    · refine ⟨[], splitOnChar sep rest, ?_, List.nil_prefix⟩
      rw [splitOnChar_cons, if_pos hc]
    · rcases ih with ⟨seg, segs, hsp, hpre⟩
      refine ⟨c :: seg, segs, ?_, ?_⟩
      · rw [splitOnChar_cons, if_neg hc, hsp]
      · exact List.cons_prefix_cons.mpr ⟨rfl, hpre⟩

theorem mem_splitOnChar_within (sep : Char) (s : Str) :
    ∀ l ∈ splitOnChar sep s, l <:+: s := by
  induction s with
  | nil =>
    intro l hl
    simp [splitOnChar] at hl
    simp [hl]
  | cons c rest ih =>
    intro l hl
    unfold splitOnChar at hl
    by_cases hc : c = sep
    · rw [if_pos hc] at hl
      rcases List.mem_cons.mp hl with h | h
      · simp [h]
      · exact List.infix_cons (ih l h)
    · rw [if_neg hc] at hl
      rcases splitOnChar_head_pre sep rest with ⟨seg, segs, hsp, hpre⟩
      rw [hsp] at hl
      rcases List.mem_cons.mp hl with h | h
      · subst h
        exact (List.cons_prefix_cons.mpr ⟨rfl, hpre⟩).isInfix
      · exact List.infix_cons
          (ih l (by rw [hsp]; exact List.mem_cons_of_mem seg h))

theorem splitOnChar_append (sep : Char) (l s : Str) (h : sep ∉ l) :
    splitOnChar sep (l ++ sep :: s) = l :: splitOnChar sep s := by
  induction l with
  | nil => simp [splitOnChar]
  | cons c t ih =>
    have hc : c ≠ sep := fun hcc => h (hcc ▸ List.mem_cons_self c t)
    have ht : sep ∉ t := fun hm => h (List.mem_cons_of_mem c hm)
    show splitOnChar sep (c :: (t ++ sep :: s)) = (c :: t) :: splitOnChar sep s
    rw [splitOnChar_cons, if_neg hc, ih ht]

theorem scanTokens_singleton (last : Str) :
    scanTokens [last]
      = if maxScanTokenSize ≤ last.length then []
        else if last = [] then [] else [dropCR last] := rfl

theorem scanTokens_cons_cons (seg b : Str) (rest : List Str) :
    scanTokens (seg :: b :: rest)
      = if maxScanTokenSize ≤ seg.length then []
        else dropCR seg :: scanTokens (b :: rest) := rfl

theorem scanLines_def (s : Str) :
    scanLines s = scanTokens (splitOnChar '\n' s) := rfl

theorem dropCR_pre (l : Str) : dropCR l <+: l := by
  unfold dropCR
  by_cases h : l.getLast? = some '\r'
  · rw [if_pos h]
    exact List.dropLast_prefix l
  · rw [if_neg h]

theorem mem_of_getLast?_eq {l : Str} {c : Char} (h : l.getLast? = some c) :
    c ∈ l := by
  rcases List.mem_getLast?_eq_getLast (show c ∈ l.getLast? from h) with ⟨hne, heq⟩
  rw [heq]
  exact List.getLast_mem hne

/-- Every emitted token is the CR-stripped form of a segment that fits the
scanner's token bound. -/
theorem mem_scanTokens :
    ∀ (segs : List Str) (l : Str), l ∈ scanTokens segs →
      ∃ seg ∈ segs, l = dropCR seg ∧ seg.length < maxScanTokenSize
  | [], l, h => absurd h (List.not_mem_nil l)
  | [last], l, h => by
    rw [scanTokens_singleton] at h
    by_cases hlen : maxScanTokenSize ≤ last.length
    · rw [if_pos hlen] at h
      exact absurd h (List.not_mem_nil l)
    · rw [if_neg hlen] at h
      by_cases hemp : last = []
      · rw [if_pos hemp] at h
        exact absurd h (List.not_mem_nil l)
      · rw [if_neg hemp] at h
        have hq : l = dropCR last := by simpa using h
        exact ⟨last, List.mem_cons_self last [], hq, Nat.lt_of_not_le hlen⟩
  | seg :: b :: rest, l, h => by
    rw [scanTokens_cons_cons] at h
    by_cases hlen : maxScanTokenSize ≤ seg.length
    · rw [if_pos hlen] at h
      exact absurd h (List.not_mem_nil l)
    · rw [if_neg hlen] at h
      rcases List.mem_cons.mp h with h1 | h1
      · exact ⟨seg, List.mem_cons_self seg _, h1, Nat.lt_of_not_le hlen⟩
      · rcases mem_scanTokens (b :: rest) l h1 with ⟨sg, hsg, heq, hshort⟩
        exact ⟨sg, List.mem_cons_of_mem seg hsg, heq, hshort⟩

theorem mem_scanLines_cases (s : Str) {l : Str} (h : l ∈ scanLines s) :
    ∃ seg ∈ splitOnChar '\n' s, l = dropCR seg
      ∧ seg.length < maxScanTokenSize := by
  rw [scanLines_def] at h
  exact mem_scanTokens (splitOnChar '\n' s) l h

theorem mem_scanLines_short (s : Str) :
    ∀ l ∈ scanLines s, l.length < maxScanTokenSize := by
  intro l hl
  rcases mem_scanLines_cases s hl with ⟨seg, hseg, rfl, hshort⟩
  exact Nat.lt_of_le_of_lt (dropCR_pre seg).length_le hshort

theorem mem_scanLines_no_nl (s : Str) :
    ∀ l ∈ scanLines s, ('\n' : Char) ∉ l := by
  intro l hl hmem
  rcases mem_scanLines_cases s hl with ⟨seg, hseg, rfl, _⟩
  exact sep_not_mem_splitOnChar '\n' s seg hseg
    ((dropCR_pre seg).sublist.subset hmem)

theorem mem_scanLines_within (s : Str) : ∀ l ∈ scanLines s, l <:+: s := by
  intro l hl
  rcases mem_scanLines_cases s hl with ⟨seg, hseg, rfl, _⟩
  exact ((dropCR_pre seg).isInfix).trans (mem_splitOnChar_within '\n' s seg hseg)

/-- Re-tokenizing an emitted newline-terminated block of scannable lines
recovers the lines (up to the scanner's carriage-return removal). -/
theorem scanLines_joinNL (ls : List Str)
    (h : ∀ l ∈ ls, ('\n' : Char) ∉ l ∧ l.length < maxScanTokenSize) :
    scanLines (joinNL ls) = ls.map dropCR := by
  induction ls with
  | nil => rfl
  | cons l ls ih =>
    rcases h l (List.mem_cons_self l ls) with ⟨hnl, hshort⟩
    have hls : ∀ x ∈ ls, ('\n' : Char) ∉ x ∧ x.length < maxScanTokenSize :=
      fun x hx => h x (List.mem_cons_of_mem l hx)
    have ihh := ih hls
    show scanLines (l ++ '\n' :: joinNL ls) = dropCR l :: ls.map dropCR
    rw [scanLines_def] at ihh ⊢
    rw [splitOnChar_append _ _ _ hnl]
    cases hsegs : splitOnChar '\n' (joinNL ls) with
    | nil => exact absurd hsegs (splitOnChar_ne_nil _ _)
    | cons s0 ss =>
      rw [hsegs] at ihh
      rw [scanTokens_cons_cons, if_neg (Nat.not_le.mpr hshort), ihh]

theorem emitLines_eq (ls : List Str) :
    emitLines ls = joinNL (ls.filter keepLine) := by
  induction ls with
  | nil => rfl
  | cons l ls ih =>
    unfold emitLines
    by_cases hk : keepLine l = true
    · rw [if_pos hk, List.filter_cons_of_pos hk]
      show l ++ '\n' :: emitLines ls = l ++ '\n' :: joinNL (ls.filter keepLine)
      rw [ih]
    · rw [if_neg hk, List.filter_cons_of_neg (by simpa using hk), ih]

theorem splitOnChar_eq_splitOn (sep : Char) (s : Str) :
    splitOnChar sep s = s.splitOn sep := by
  show splitOnChar sep s = s.splitOnP (· == sep)
  induction s with
  | nil => simp [splitOnChar, List.splitOnP_nil]
  | cons c rest ih =>
    rw [splitOnChar_cons, List.splitOnP_cons]
    by_cases hc : c = sep
    · rw [if_pos hc, if_pos (by simp [hc]), ih]
    · rw [if_neg hc, if_neg (by simp [hc]), ← ih]
      cases hsp : splitOnChar sep rest with
      | nil => exact absurd hsp (splitOnChar_ne_nil _ _)
      | cons seg segs => rfl

/-- The scanner's lines under the claim's plain reading: segments between
newline bytes, a trailing empty segment dropped, no carriage-return
handling. -/
def nlTokens (s : Str) : List Str :=
  let segs := s.splitOn '\n'
  if segs.getLast? = some [] then segs.dropLast else segs

/-- Modelled from the claim's words (C3/C9 as stated): per line, drop the
blank and comment lines and emit the ORIGINAL line followed by one
newline. -/
def lineFilterClaim (s : Str) : Str :=
  joinNL ((nlTokens s).filter keepLine)

/-- Whether a line fits the scanner's token bound. -/
def shortLine (l : Str) : Bool := l.length < maxScanTokenSize

/-- Modelled from the amended claim: the lines of the input are the
newline-separated segments up to (excluding) the first one of
`maxScanTokenSize` bytes or more — whose appearance silently ends
processing, dropping it and everything after it; when every segment fits,
a trailing empty segment yields no line; each line then has one trailing
carriage return removed. -/
def scanAmended (s : Str) : List Str :=
  let segs := s.splitOn '\n'
  let good := segs.takeWhile shortLine
  if good.length = segs.length then
    (if segs.getLast? = some [] then segs.dropLast else segs).map dropCR
  else good.map dropCR

/-- The amended Line Filter formulation: the claim's per-line rules over
the scanner's actual line sequence (CR-stripped, truncated at the first
over-long line). -/
def lineFilterAmended (s : Str) : Str :=
  joinNL ((scanAmended s).filter keepLine)

/-- The scanner loop agrees with the takeWhile formulation of the amended
claim. -/
theorem scanTokens_spec :
    ∀ segs : List Str, segs ≠ [] →
      scanTokens segs
        = (if (segs.takeWhile shortLine).length = segs.length then
            (if segs.getLast? = some [] then segs.dropLast else segs).map dropCR
          else (segs.takeWhile shortLine).map dropCR)
  | [], h => absurd rfl h
  | [last], _ => by
    by_cases hlen : maxScanTokenSize ≤ last.length
    · have hsl : ¬ shortLine last = true := by
        simp only [shortLine, decide_eq_true_eq]
        omega
      rw [scanTokens_singleton, if_pos hlen,
        List.takeWhile_cons shortLine last [], if_neg hsl]
      rw [if_neg (by simp)]
      rfl
    · have hsl : shortLine last = true := by
        simp only [shortLine, decide_eq_true_eq]
        omega
      rw [scanTokens_singleton, if_neg hlen,
        List.takeWhile_cons shortLine last [], if_pos hsl,
        List.takeWhile_nil, if_pos rfl]
      by_cases hemp : last = []
      · subst hemp
        rw [if_pos rfl,
          if_pos (show ([[]] : List Str).getLast? = some [] from rfl)]
        rfl
      · rw [if_neg hemp, if_neg (by simp [hemp])]
        rfl
  | seg :: b :: rest, _ => by
    by_cases hlen : maxScanTokenSize ≤ seg.length
    · have hsl : ¬ shortLine seg = true := by
        simp only [shortLine, decide_eq_true_eq]
        omega
      rw [scanTokens_cons_cons, if_pos hlen,
        List.takeWhile_cons shortLine seg (b :: rest), if_neg hsl]
      rw [if_neg (by simp)]
      rfl
    · have hsl : shortLine seg = true := by
        simp only [shortLine, decide_eq_true_eq]
        omega
      have ih := scanTokens_spec (b :: rest) (by simp)
      rw [scanTokens_cons_cons, if_neg hlen, ih,
        List.takeWhile_cons shortLine seg (b :: rest), if_pos hsl]
      by_cases hall :
          ((b :: rest).takeWhile shortLine).length = (b :: rest).length
      · have hout : (seg :: (b :: rest).takeWhile shortLine).length
            = (seg :: b :: rest).length := by
          simp only [List.length_cons] at hall ⊢
          omega
        rw [if_pos hall, if_pos hout, List.getLast?_cons_cons]
        by_cases hlast : (b :: rest).getLast? = some []
        · rw [if_pos hlast, if_pos hlast]
          show dropCR seg :: ((b :: rest).dropLast).map dropCR
            = (seg :: (b :: rest).dropLast).map dropCR
          rw [List.map_cons]
        · rw [if_neg hlast, if_neg hlast]
          rfl
      · have hout : ¬ (seg :: (b :: rest).takeWhile shortLine).length
            = (seg :: b :: rest).length := by
          simp only [List.length_cons] at hall ⊢
          omega
        rw [if_neg hall, if_neg hout, List.map_cons]

theorem scanLines_eq_scanAmended (s : Str) : scanLines s = scanAmended s := by
  rw [scanLines_def,
    scanTokens_spec (splitOnChar '\n' s) (splitOnChar_ne_nil '\n' s),
    splitOnChar_eq_splitOn]
  rfl

/-- C3 counterexample: on input `"ab\r\n"` the code emits `"ab\n"` — the
`\r` is removed by the scanner — while the claim's "original, untrimmed
line followed by exactly one newline" would be `"ab\r\n"`. -/
theorem line_filter_claim_cex :
    processFileLines (lit "ab\r\n") = lit "ab\n"
    ∧ lineFilterClaim (lit "ab\r\n") = lit "ab\r\n"
    ∧ processFileLines (lit "ab\r\n") ≠ lineFilterClaim (lit "ab\r\n") := by
  decide

/-- C3 amended: the Line Filter splits at newline bytes and processes
lines in order only up to the first line of `maxScanTokenSize` (64 KiB)
bytes or more, where the scanner fails and — its error being ignored —
that line and all subsequent content are silently dropped; each processed
line has a single trailing carriage return removed, whitespace-blank lines
and lines whose trimmed form starts with `//` or `#` are dropped, and each
remaining line (CR-stripped but otherwise untrimmed) is emitted followed
by exactly one newline; the local (`processFile`) and remote
(`fetchFileRaw`) transforms are the same function, and on a concrete input
whose middle line is 64 KiB of `b` the output is the first line alone. -/
theorem line_filter_characterisation (s : Str) :
    (processFileLines s = lineFilterAmended s
      ∧ fetchFileRawLines s = processFileLines s)
    ∧ processFileLines
        (lit "a" ++ '\n' :: (List.replicate maxScanTokenSize 'b'
          ++ '\n' :: (lit "c" ++ '\n' :: [])))
      = lit "a\n" := by
  refine ⟨⟨?_, rfl⟩, ?_⟩
  · unfold processFileLines lineFilterAmended
    rw [emitLines_eq, scanLines_eq_scanAmended]
  · unfold processFileLines
    rw [scanLines_def,
      splitOnChar_append '\n' (lit "a") _ (by decide),
      splitOnChar_append '\n' (List.replicate maxScanTokenSize 'b') _
        (by simp [List.mem_replicate]),
      splitOnChar_append '\n' (lit "c") _ (by decide),
      scanTokens_cons_cons, if_neg (by decide),
      scanTokens_cons_cons, if_pos (by simp)]
    decide

/-- C4 counterexample: the Line Filter is not idempotent — on `"a\r\r\n"`
one pass yields `"a\r\n"` and a second pass strips the remaining carriage
return, yielding `"a\n"`. -/
theorem line_filter_idem_cex :
    processFileLines (processFileLines (lit "a\r\r\n"))
      ≠ processFileLines (lit "a\r\r\n") := by
  decide

/-- C4 amended: on every input containing no carriage-return byte the Line
Filter is idempotent. -/
theorem line_filter_idem (s : Str) (h : ('\r' : Char) ∉ s) :
    processFileLines (processFileLines s) = processFileLines s := by
  have hnl : ∀ l ∈ (scanLines s).filter keepLine,
      ('\n' : Char) ∉ l ∧ l.length < maxScanTokenSize :=
    fun l hl => ⟨mem_scanLines_no_nl s l (List.mem_of_mem_filter hl),
      mem_scanLines_short s l (List.mem_of_mem_filter hl)⟩
  have hmap : ((scanLines s).filter keepLine).map dropCR
      = (scanLines s).filter keepLine := by
    have hpt : ∀ l ∈ (scanLines s).filter keepLine, dropCR l = id l := by
      intro l hl
      have hinf := mem_scanLines_within s l (List.mem_of_mem_filter hl)
      show dropCR l = l
      unfold dropCR
      rw [if_neg (fun hlast => h (hinf.sublist.subset (mem_of_getLast?_eq hlast)))]
    rw [List.map_congr_left hpt, List.map_id]
  show emitLines (scanLines (emitLines (scanLines s))) = emitLines (scanLines s)
  rw [emitLines_eq (scanLines s), scanLines_joinNL _ hnl, hmap,
    emitLines_eq, List.filter_filter]
  simp only [Bool.and_self]

/-- Closed instance for `line_filter_idem` on a CR-free input with blank
and comment lines. -/
theorem line_filter_idem_witness :
    ('\r' : Char) ∉ lit "x\n\n# c\n  y"
    ∧ processFileLines (processFileLines (lit "x\n\n# c\n  y"))
        = processFileLines (lit "x\n\n# c\n  y") :=
  ⟨by decide, line_filter_idem (lit "x\n\n# c\n  y") (by decide)⟩

/-- C9 counterexample: under the claim's plain newline-splitting, the
retained line of `"b\r\n"` is `"b\r"`, whose bytes do not appear in the
output `"b\n"` — the trailing carriage return is removed, so retained
bytes are not always passed through exactly. -/
theorem retained_bytes_cex :
    (nlTokens (lit "b\r\n")).filter keepLine = [lit "b\r"]
    ∧ ¬ (lit "b\r" <:+: processFileLines (lit "b\r\n")) := by
  decide

/-- C9 amended: the Line Filter is a total function of the input, with
lines split at the newline byte regardless of encoding correctness; its
output is the concatenation of the retained scanner lines each followed by
one newline — where the scanner stops silently at the first line of
`maxScanTokenSize` (64 KiB) bytes or more, dropping it and all later
content rather than passing it through — and every retained line, after
the scanner's removal of at most one trailing carriage return, is a
contiguous substring of the input. -/
theorem retained_lines_substring (s : Str) :
    processFileLines s = joinNL ((scanLines s).filter keepLine)
    ∧ ∀ l ∈ (scanLines s).filter keepLine, l <:+: s :=
  ⟨emitLines_eq (scanLines s),
    fun l hl => mem_scanLines_within s l (List.mem_of_mem_filter hl)⟩

/-- Closed instance for `retained_lines_substring`: the retained line
`"ab"` of `"ab\ncd"` occurs contiguously in the input. -/
theorem retained_lines_substring_witness :
    lit "ab" ∈ (scanLines (lit "ab\ncd")).filter keepLine
    ∧ lit "ab" <:+: lit "ab\ncd" :=
  ⟨by decide,
    (retained_lines_substring (lit "ab\ncd")).2 (lit "ab") (by decide)⟩

/-!  Local tree walk: pruning of ignored directories. -/

theorem walkForest_append (inc : Bool) (ign : List Str → Bool)
    (path : List Str) (xs ys : List FSTree) :
    walkForest inc ign path (xs ++ ys)
      = walkForest inc ign path xs ++ walkForest inc ign path ys := by
  induction xs with
  | nil => rfl
  | cons t ts ih =>
    show walkTree inc ign path t ++ walkForest inc ign path (ts ++ ys)
      = (walkTree inc ign path t ++ walkForest inc ign path ts)
        ++ walkForest inc ign path ys
    rw [ih, List.append_assoc]

/-- C6: with ignore-matching enabled (no `--includeIgnore`), a directory
that the ignore predicate matches at its own level is pruned whole: the
walk emits nothing for it, for any classification of the files beneath it;
and within any surrounding listing the walk output is exactly the output of
the siblings, so no file under the ignored directory contributes a header
or content. -/
theorem ignored_dir_pruned (ign : List Str → Bool) (path : List Str)
    (name : Str) (children : List FSTree)
    (h : ign (path ++ [name]) = true) :
    walkTree false ign path (FSTree.dir name children) = []
    ∧ ∀ pre post : List FSTree,
        walkForest false ign path (pre ++ FSTree.dir name children :: post)
          = walkForest false ign path pre ++ walkForest false ign path post := by
  have hd : walkTree false ign path (FSTree.dir name children) = [] := by
    unfold walkTree
    simp [h]
  refine ⟨hd, fun pre post => ?_⟩
  rw [walkForest_append]
  show walkForest false ign path pre
      ++ (walkTree false ign path (FSTree.dir name children)
        ++ walkForest false ign path post) = _
  rw [hd]
  rfl

/-- Closed instance for `ignored_dir_pruned`: a matched directory with a
file below it yields no output even though the file itself is not
matched. -/
theorem ignored_dir_pruned_witness :
    (fun p => decide (p = [lit "node_modules"])) ([] ++ [lit "node_modules"]) = true
    ∧ walkTree false (fun p => decide (p = [lit "node_modules"])) []
        (FSTree.dir (lit "node_modules")
          [FSTree.file (lit "a.txt") (lit "kept line")]) = [] :=
  ⟨by decide,
    (ignored_dir_pruned (fun p => decide (p = [lit "node_modules"])) []
      (lit "node_modules") [FSTree.file (lit "a.txt") (lit "kept line")]
      (by decide)).1⟩

/-!  Remote spec resolution. -/

theorem splitPathKeepOrder_def (p : Str) :
    splitPathKeepOrder p
      = (if trimSufSlash (trimPreSlash (trimSpace p)) = [] then []
         else (splitOnChar '/' (trimSufSlash (trimPreSlash (trimSpace p)))).filter
           (fun l => !l.isEmpty)) := rfl

theorem mem_splitPathKeepOrder (p : Str) :
    ∀ l ∈ splitPathKeepOrder p, l ≠ [] ∧ ('/' : Char) ∉ l := by
  intro l hl
  rw [splitPathKeepOrder_def] at hl
  by_cases hz : trimSufSlash (trimPreSlash (trimSpace p)) = []
  · rw [if_pos hz] at hl
    exact absurd hl (List.not_mem_nil l)
  · rw [if_neg hz] at hl
    refine ⟨?_, sep_not_mem_splitOnChar '/' _ l (List.mem_of_mem_filter hl)⟩
    have h2 := List.of_mem_filter hl
    simpa using h2

theorem joinSegs_head (segs : List Str)
    (h : ∀ l ∈ segs, l ≠ [] ∧ ('/' : Char) ∉ l) :
    (joinSegs segs).head? ≠ some '/' := by
  cases segs with
  | nil => simp [joinSegs]
  | cons l ls =>
    rcases h l (List.mem_cons_self l ls) with ⟨hne, hns⟩
    cases l with
    | nil => exact absurd rfl hne
    | cons c t =>
      have hc : c ≠ '/' := fun hcc => hns (hcc ▸ List.mem_cons_self c t)
      cases ls with
      | nil =>
        show (c :: t).head? ≠ some '/'
        simp [hc]
      | cons l2 ls2 =>
        show ((c :: t) ++ '/' :: joinSegs (l2 :: ls2)).head? ≠ some '/'
        simp [hc]

theorem trimPreSlash_eq_self {s : Str} (h : s.head? ≠ some '/') :
    trimPreSlash s = s := by
  cases s with
  | nil => rfl
  | cons c t =>
    have hc : c ≠ '/' := fun hcc => h (by simp [hcc])
    show (if c = '/' then t else c :: t) = c :: t
    rw [if_neg hc]

theorem refAndPath_marker (m r : Str) (more : List Str)
    (h : m = lit "tree" ∨ m = lit "blob") :
    refAndPath (m :: r :: more) = (r, joinSegs more) := by
  show (if m = lit "tree" ∨ m = lit "blob" then (r, joinSegs more)
    else ([], joinSegs (m :: r :: more))) = (r, joinSegs more)
  rw [if_pos h]

theorem refAndPath_no_marker (m r : Str) (more : List Str)
    (h : ¬(m = lit "tree" ∨ m = lit "blob")) :
    refAndPath (m :: r :: more) = ([], joinSegs (m :: r :: more)) := by
  show (if m = lit "tree" ∨ m = lit "blob" then (r, joinSegs more)
    else ([], joinSegs (m :: r :: more))) = ([], joinSegs (m :: r :: more))
  rw [if_neg h]

theorem repoAndRef_none (repo0 ref0 : Str) (h : idxOfAt repo0 = none) :
    repoAndRef repo0 ref0 = (repo0, ref0) := by
  unfold repoAndRef
  rw [h]

theorem repoAndRef_some (repo0 ref0 : Str) (i : Nat)
    (h : idxOfAt repo0 = some i) :
    repoAndRef repo0 ref0 = (repo0.take i, repo0.drop (i + 1)) := by
  unfold repoAndRef
  rw [h]

theorem parseSegs_cons (owner repo0 : Str) (rest : List Str) :
    parseSegs (owner :: repo0 :: rest)
      = Except.ok
        { owner := owner,
          repo := (repoAndRef repo0 (refAndPath rest).1).1,
          ref := (repoAndRef repo0 (refAndPath rest).1).2,
          path := trimPreSlash (refAndPath rest).2 } := rfl

/-- C7: the resolver treats the post-host segments as
`[owner, repo, ...rest]` — fewer than two is a fatal parse error; a
`tree`/`blob` marker with a following segment makes that segment the ref
and the remainder the sub-path; without a usable marker all remaining
segments are sub-path and the ref stays empty; an `@` inside the repo
segment splits it into repo name and ref, overriding any marker ref since
it is applied after the marker parse; and the parsed sub-path never starts
with a slash (empty sub-path denotes the repository root). -/
theorem github_spec_resolution (p : Str) :
    ((splitPathKeepOrder p).length < 2 →
      ∃ e, parseGitHubSpecPath p = Except.error e)
    ∧ (∀ owner repo m r more,
        splitPathKeepOrder p = owner :: repo :: m :: r :: more →
        (m = lit "tree" ∨ m = lit "blob") → idxOfAt repo = none →
        parseGitHubSpecPath p = Except.ok ⟨owner, repo, r, joinSegs more⟩)
    ∧ (∀ owner repo rest,
        splitPathKeepOrder p = owner :: repo :: rest →
        (∀ m r more, rest = m :: r :: more →
          ¬(m = lit "tree" ∨ m = lit "blob")) →
        idxOfAt repo = none →
        parseGitHubSpecPath p = Except.ok ⟨owner, repo, [], joinSegs rest⟩)
    ∧ (∀ owner repo rest i,
        splitPathKeepOrder p = owner :: repo :: rest →
        idxOfAt repo = some i →
        ∃ spec, parseGitHubSpecPath p = Except.ok spec
          ∧ spec.owner = owner ∧ spec.repo = repo.take i
          ∧ spec.ref = repo.drop (i + 1))
    ∧ (∀ spec, parseGitHubSpecPath p = Except.ok spec →
        spec.path.head? ≠ some '/') := by
  have hmem := mem_splitPathKeepOrder p
  refine ⟨?_, ?_, ?_, ?_, ?_⟩
  · intro hlen
    unfold parseGitHubSpecPath
    cases hsegs : splitPathKeepOrder p with
    | nil => exact ⟨_, rfl⟩
    | cons a tl =>
      cases tl with
      | nil => exact ⟨_, rfl⟩
      | cons b tl2 =>
        rw [hsegs] at hlen
        simp at hlen
        omega
  · intro owner repo m r more hsegs hm hat
    have hmore : ∀ l ∈ more, l ≠ [] ∧ ('/' : Char) ∉ l := by
      intro l hl
      refine hmem l ?_
      rw [hsegs]
      exact List.mem_cons_of_mem _ (List.mem_cons_of_mem _
        (List.mem_cons_of_mem _ (List.mem_cons_of_mem _ hl)))
    unfold parseGitHubSpecPath
    rw [hsegs, parseSegs_cons, refAndPath_marker m r more hm]
    show Except.ok (GitHubSpec.mk owner (repoAndRef repo r).1
      (repoAndRef repo r).2 (trimPreSlash (joinSegs more))) = _
    rw [repoAndRef_none repo r hat,
      trimPreSlash_eq_self (joinSegs_head more hmore)]
  · intro owner repo rest hsegs hnom hat
    have hrest : ∀ l ∈ rest, l ≠ [] ∧ ('/' : Char) ∉ l := by
      intro l hl
      refine hmem l ?_
      rw [hsegs]
      exact List.mem_cons_of_mem _ (List.mem_cons_of_mem _ hl)
    have hrp : refAndPath rest = ([], joinSegs rest) := by
      match rest with
      | [] => rfl
      | [m] => rfl
      | m :: r :: more =>
        exact refAndPath_no_marker m r more (hnom m r more rfl)
    unfold parseGitHubSpecPath
    rw [hsegs, parseSegs_cons, hrp]
    show Except.ok (GitHubSpec.mk owner (repoAndRef repo []).1
      (repoAndRef repo []).2 (trimPreSlash (joinSegs rest))) = _
    rw [repoAndRef_none repo [] hat,
      trimPreSlash_eq_self (joinSegs_head rest hrest)]
  · intro owner repo rest i hsegs hat
    unfold parseGitHubSpecPath
    rw [hsegs, parseSegs_cons, repoAndRef_some repo _ i hat]
    exact ⟨_, rfl, rfl, rfl, rfl⟩
  · intro spec hspec hhead
    unfold parseGitHubSpecPath at hspec
    cases hsegs : splitPathKeepOrder p with
    | nil =>
      rw [hsegs] at hspec
      exact Except.noConfusion hspec
    | cons owner tl =>
      cases tl with
      | nil =>
        rw [hsegs] at hspec
        exact Except.noConfusion hspec
      | cons repo rest =>
        rw [hsegs, parseSegs_cons] at hspec
        have hrest : ∀ l ∈ rest, l ≠ [] ∧ ('/' : Char) ∉ l := by
          intro l hl
          refine hmem l ?_
          rw [hsegs]
          exact List.mem_cons_of_mem _ (List.mem_cons_of_mem _ hl)
        have hpath : (refAndPath rest).2.head? ≠ some '/' := by
          cases rest with
          | nil => simp [refAndPath, joinSegs]
          | cons m tl =>
            cases tl with
            | nil =>
              show (joinSegs [m]).head? ≠ some '/'
              exact joinSegs_head [m] hrest
            | cons r more =>
              by_cases hmk : m = lit "tree" ∨ m = lit "blob"
              · rw [refAndPath_marker m r more hmk]
                exact joinSegs_head more (fun l hl => hrest l
                  (List.mem_cons_of_mem _ (List.mem_cons_of_mem _ hl)))
              · rw [refAndPath_no_marker m r more hmk]
                exact joinSegs_head (m :: r :: more) hrest
        have hspec2 : spec.path = trimPreSlash (refAndPath rest).2 := by
          have hss := Except.ok.inj hspec
          rw [← hss]
        rw [hspec2, trimPreSlash_eq_self hpath] at hhead
        exact hpath hhead

/-- Closed instance for `github_spec_resolution`: the tree-marker form
`/o/r/tree/main/x/y` parses to owner `o`, repo `r`, ref `main`, sub-path
`x/y`. -/
theorem github_spec_resolution_witness :
    splitPathKeepOrder (lit "/o/r/tree/main/x/y")
        = [lit "o", lit "r", lit "tree", lit "main", lit "x", lit "y"]
    ∧ parseGitHubSpecPath (lit "/o/r/tree/main/x/y")
        = Except.ok ⟨lit "o", lit "r", lit "main", joinSegs [lit "x", lit "y"]⟩ :=
  ⟨by decide,
    (github_spec_resolution (lit "/o/r/tree/main/x/y")).2.1 (lit "o") (lit "r")
      (lit "tree") (lit "main") [lit "x", lit "y"] (by decide) (Or.inl rfl)
      (by decide)⟩

end Pull
